import Mathlib

/-!
Verification development for the object-coalescer repository
(`coalescer/main.py` and `coalescer/utility/grouping.py`).

The Python sources are shallowly embedded below:

* object keys are `List Char`; S3 listing entries (`summary`) become the
  `Summary` structure with the two fields the code reads (`Key`, `Size`);
* the regular expression `/([.\w]+)_(\d+)_(\d+)-(\d+)\.jsonl\.gz$` used by
  `grouped_object_summaries` is embedded as an executable matcher
  (`allMatches`), faithful to `re.findall` semantics for this pattern:
  every match of the pattern ends at the end of the string (the `$` anchor),
  the four capture groups are recovered by maximal-munch scanning from the
  right, and `\w` is modelled at the ASCII fragment `[A-Za-z0-9_]`;
* Python dicts are embedded as insertion-ordered association lists with
  first-occurrence lookup, which matches dict insertion/iteration order;
* `sorted(..., key=lambda x: x['start_offset'])` is a stable sort and is
  embedded as the stable insertion sort `sortByStart`;
* sizes are `Nat` (an S3 object size is a non-negative integer);
* the external store (`utility/s3.py`, an out-of-scope collaborator) is an
  oracle `Store` whose operations either succeed or raise a `ClientError`,
  and each executed batch additionally records which store operations were
  invoked, so that "without invoking coalesce/delete" is expressible.
-/

/-- An entry of the S3 listing: the code reads `summary['Key']` and
`summary['Size']`. -/
structure Summary where
  key : List Char
  size : Nat
deriving DecidableEq

/-- The record dict built by `grouped_object_summaries` for a matching key. -/
structure StreamRecord where
  object_key : List Char
  topic : List Char
  partition : Nat
  start_offset : Nat
  end_offset : Nat
  size : Nat
deriving DecidableEq

/-- Characters matched by the `[.\w]` class of the filename pattern
(ASCII fragment of Python `\w`, plus the dot). -/
def isWordDot (c : Char) : Bool := c.isAlphanum || c = '_' || c = '.'

/-- The literal suffix `.jsonl.gz` of the filename pattern, reversed. -/
def gzSuffixRev : List Char := ['z', 'g', '.', 'l', 'n', 'o', 's', 'j', '.']

/-- Strips an expected literal off the front of a list, failing when the
list does not start with it. -/
def dropLit : List Char → List Char → Option (List Char)
  | [], r => some r
  | _ :: _, [] => none
  | c :: cs, d :: ds => if c = d then dropLit cs ds else none

/-- Takes the maximal digit run (`\d+`, nonempty) off the front of the
list and then the expected separator character; the remainder is returned
with the digits.  A `\d+` group of the end-anchored pattern that is
preceded by a non-digit separator must be exactly such a maximal run when
the reversed string is scanned. -/
def grabDigits (sep : Char) (l : List Char) : Option (List Char × List Char) :=
  match l.dropWhile Char.isDigit with
  | c :: rest =>
    if c = sep ∧ l.takeWhile Char.isDigit ≠ [] then
      some (l.takeWhile Char.isDigit, rest)
    else none
  | [] => none

/-- Attempts to match the tail that follows a `/` against
`([.\w]+)_(\d+)_(\d+)-(\d+)\.jsonl\.gz$`, returning the four capture
groups.  The tail is scanned from the right: the literal `.jsonl.gz` at the
very end, then the maximal digit run for each numeric group separated by
the literal `-` and `_` separators, then the word-dot group; this is
exactly the decomposition the (greedy, end-anchored) pattern produces. -/
def parseTail (tail : List Char) : Option (List Char × List Char × List Char × List Char) :=
  (dropLit gzSuffixRev tail.reverse).bind fun r1 =>
  (grabDigits '-' r1).bind fun br =>
  (grabDigits '_' br.2).bind fun ar =>
  (grabDigits '_' ar.2).bind fun pr =>
  if pr.2 ≠ [] ∧ pr.2.all isWordDot then
    some (pr.2.reverse, pr.1.reverse, ar.1.reverse, br.1.reverse)
  else none

/-- All structural matches of the filename pattern inside a key, leftmost
first: one candidate per `/` whose following tail matches the end-anchored
pattern.  This embeds `filename_re.findall(object_key)`; since every match
of this pattern extends to the end of the key, distinct matches would
overlap, and the list also contains every structurally valid match. -/
def allMatches : List Char → List (List Char × List Char × List Char × List Char)
  | [] => []
  | c :: rest =>
    if c = '/' then
      match parseTail rest with
      | some r => r :: allMatches rest
      | none => allMatches rest
    else allMatches rest

/-- Digit string to number, as Python `int` on a decimal numeral. -/
def digitsToNat (l : List Char) : Nat :=
  l.foldl (fun n c => n * 10 + (c.toNat - '0'.toNat)) 0

/-- The per-summary step of `grouped_object_summaries`: the record is built
exactly when `match and len(match) == 1`, i.e. when `findall` returns a
single tuple. -/
def parseSummary (s : Summary) : Option StreamRecord :=
  match allMatches s.key with
  | [(t, p, a, b)] =>
    some ⟨s.key, t, digitsToNat p, digitsToNat a, digitsToNat b, s.size⟩
  | _ => none

/-- The literal suffix `.jsonl.gz` of the filename pattern. -/
def gzSuffix : List Char := ['.', 'j', 's', 'o', 'n', 'l', '.', 'g', 'z']

/-- The tail after a `/` of a key that is well formed for the filename
pattern: `<sid>_<p>_<a>-<b>.jsonl.gz`. -/
def goodKeyTail (sid p a b : List Char) : List Char :=
  sid ++ '_' :: (p ++ '_' :: (a ++ '-' :: (b ++ gzSuffix)))

/-- An object key of the shape `<pre>/<sid>_<p>_<a>-<b>.jsonl.gz`, i.e. a
key embedding the stream id, partition and offset range per the naming
grammar (`pre` is arbitrary and may itself contain slashes). -/
def goodKey (pre sid p a b : List Char) : List Char :=
  pre ++ '/' :: goodKeyTail sid p a b

/-- Stable insert used to embed Python `sorted`: a record is placed after
every already-placed record whose `start_offset` is less than or equal to
its own. -/
def insOrd (r : StreamRecord) : List StreamRecord → List StreamRecord
  | [] => [r]
  | x :: xs =>
    if x.start_offset ≤ r.start_offset then x :: insOrd r xs else r :: x :: xs

/-- Embeds `sorted(keys, key=lambda x: x['start_offset'])`.  Python
`sorted` is documented to be stable; a left fold of stable inserts is the
stable sort by `start_offset`. -/
def sortByStart (l : List StreamRecord) : List StreamRecord :=
  l.foldl (fun acc r => insOrd r acc) []

/-- One topic's per-partition dict.  Python dicts preserve insertion order:
a new partition key is appended at the end, an existing entry is updated in
place, which is what an association list models. -/
def addRecPart (r : StreamRecord) :
    List (Nat × List StreamRecord) → List (Nat × List StreamRecord)
  | [] => [(r.partition, [r])]
  | (p, l) :: rest =>
    if p = r.partition then (p, l ++ [r]) :: rest else (p, l) :: addRecPart r rest

/-- The grouped dict of dicts, as an insertion-ordered association list:
`grouped[topic][partition].append(record)` with on-demand creation of the
`topic` and `partition` entries. -/
def addRec (r : StreamRecord) :
    List (List Char × List (Nat × List StreamRecord)) →
      List (List Char × List (Nat × List StreamRecord))
  | [] => [(r.topic, [(r.partition, [r])])]
  | (t, parts) :: rest =>
    if t = r.topic then (t, addRecPart r parts) :: rest
    else (t, parts) :: addRec r rest

/-- Embeds `grouped_object_summaries(summaries)` of
`utility/grouping.py`: parse each summary key against the filename
pattern, insert the matching records into the nested topic/partition dict
in listing order, then sort every partition's list by `start_offset`.
The Python function takes no partition argument (its only parameter is
`summaries`) and performs no partition filtering. -/
def grouped_object_summaries (summaries : List Summary) :
    List (List Char × List (Nat × List StreamRecord)) :=
  ((summaries.filterMap parseSummary).foldl (fun g r => addRec r g) []).map
    (fun e => (e.1, e.2.map (fun q => (q.1, sortByStart q.2))))

/-- The inner batching loop of `batched_object_summaries` over one
partition's ordered records: append the object to the running batch, add
its size and bump the count, and close the batch as soon as
`current_batch_size >= max_size or current_batch_count >= max_count`;
after the loop a non-empty remainder is emitted as the final batch. -/
def goBatch (ms mc : Nat) :
    List StreamRecord → List StreamRecord → Nat → Nat → List (List StreamRecord)
  | [], cur, _, _ => if 0 < cur.length then [cur] else []
  | o :: objs, cur, sz, ct =>
    if ms ≤ sz + o.size ∨ mc ≤ ct + 1 then
      (cur ++ [o]) :: goBatch ms mc objs [] 0 0
    else
      goBatch ms mc objs (cur ++ [o]) (sz + o.size) (ct + 1)

/-- The batch sequence `batched_object_summaries` produces for one group. -/
def batchGroup (ms mc : Nat) (objects : List StreamRecord) :
    List (List StreamRecord) :=
  goBatch ms mc objects [] 0 0

/-- Embeds `batched_object_summaries(max_size, max_count, grouped)`:
the same topic/partition structure with every group replaced by its
batch sequence. -/
def batched_object_summaries (ms mc : Nat)
    (grouped : List (List Char × List (Nat × List StreamRecord))) :
    List (List Char × List (Nat × List (List StreamRecord))) :=
  grouped.map (fun e => (e.1, e.2.map (fun q => (q.1, batchGroup ms mc q.2))))

/-- A store rejection (`botocore.exceptions.ClientError`). -/
structure ClientError where
  message : List Char
deriving DecidableEq

/-- Oracle for the external S3 collaborator (`utility/s3.py`, out of
scope per the spec): for a bucket and a batch, each operation either
succeeds or raises a `ClientError`. -/
structure Store where
  coalesceRes : List Char → List StreamRecord → Except ClientError Unit
  deleteRes : List Char → List StreamRecord → Except ClientError Unit

/-- A store invocation performed while executing one batch. -/
inductive SOp
  | coalesceCall (bucket : List Char) (batch : List StreamRecord)
  | deleteCall (bucket : List Char) (batch : List StreamRecord)
deriving DecidableEq

/-- Embeds `coalesce_batch(s3, bucket, batch)` of `main.py`: a batch with
more than one record is coalesced and then deleted, returning `True`
unless the store raises `ClientError`, which is caught here and turned
into `False`; a batch of one record is skipped and reported `True`.  The
second component records which store operations were invoked (the delete
is reached only when the coalesce did not raise). -/
def coalesce_batch (st : Store) (bucket : List Char)
    (batch : List StreamRecord) : Bool × List SOp :=
  if 1 < batch.length then
    match st.coalesceRes bucket batch with
    | Except.error _ => (false, [SOp.coalesceCall bucket batch])
    | Except.ok _ =>
      match st.deleteRes bucket batch with
      | Except.error _ =>
        (false, [SOp.coalesceCall bucket batch, SOp.deleteCall bucket batch])
      | Except.ok _ =>
        (true, [SOp.coalesceCall bucket batch, SOp.deleteCall bucket batch])
  else (true, [])

/-- Embeds `coalesce_partition(bucket, partition, use_localstack)`: one
outcome per batch, in order. -/
def coalesce_partition (st : Store) (bucket : List Char)
    (partitionBatches : List (List StreamRecord)) : List (Bool × List SOp) :=
  partitionBatches.map (coalesce_batch st bucket)

/-- Embeds `coalesce_topic`: one future per partition, each resolving to
that partition's per-batch outcomes; the pool is drained (`wait`) before
returning, so the returned value is the full list of results. -/
def coalesce_topic (st : Store) (bucket : List Char)
    (batchedTopic : List (Nat × List (List StreamRecord))) :
    List (List (Bool × List SOp)) :=
  batchedTopic.map (fun q => coalesce_partition st bucket q.2)

/-- Modelled from the spec: `successful_result` is imported by `main.py`
from `utility.grouping` but is not defined in the provided sources.  Per
the spec's ResultAggregator contract it reduces the full set of
per-batch outcomes, across all streams and partitions of the run, to a
single boolean via logical AND, vacuously true when there were zero
batches. -/
def successful_result (results : List (List (List (Bool × List SOp)))) : Bool :=
  results.all (fun tr => tr.all (fun pr => pr.all (fun outcome => outcome.1)))

/-- The per-topic results `main` collects before aggregating. -/
def main_results (st : Store) (bucket : List Char) (ms mc : Nat)
    (summaries : List Summary) : List (List (List (Bool × List SOp))) :=
  (batched_object_summaries ms mc (grouped_object_summaries summaries)).map
    (fun e => coalesce_topic st bucket e.2)

/-- Embeds the tail of `main`: the aggregated run result and the process
exit code `exit(0 if successful_result(results) else 2)`.  (`main` as
written passes `args.partition` to `grouped_object_summaries`, which
accepts no such parameter — see the C8 analysis; the embedding invokes
the one-parameter function exactly as `grouping.py` defines it.) -/
def main_run (st : Store) (bucket : List Char) (ms mc : Nat)
    (summaries : List Summary) : Bool × Nat :=
  (successful_result (main_results st bucket ms mc summaries),
    if successful_result (main_results st bucket ms mc summaries) then 0 else 2)

/-- Total size of a batch, i.e. the value `current_batch_size` held when
the batch was closed (the counter is reset to `0` at every batch start). -/
def sumSizes (b : List StreamRecord) : Nat := (b.map (fun r => r.size)).sum

/-- First-occurrence lookup of a topic in the grouped association list
(dict access `grouped[topic]`). -/
def lookT (g : List (List Char × List (Nat × List StreamRecord)))
    (t : List Char) : Option (List (Nat × List StreamRecord)) :=
  match g with
  | [] => none
  | e :: rest => if e.1 = t then some e.2 else lookT rest t

/-- First-occurrence lookup of a partition in one topic's dict
(dict access `grouped[topic][partition]`). -/
def lookP (parts : List (Nat × List StreamRecord)) (p : Nat) :
    Option (List StreamRecord) :=
  match parts with
  | [] => none
  | q :: rest => if q.1 = p then some q.2 else lookP rest p

/-- Lookup of one group, `grouped[topic][partition]`. -/
def entry (g : List (List Char × List (Nat × List StreamRecord)))
    (t : List Char) (p : Nat) : Option (List StreamRecord) :=
  (lookT g t).bind (fun parts => lookP parts p)

/-- Topic keys of the grouped dict, in insertion order. -/
def keysT (g : List (List Char × List (Nat × List StreamRecord))) :
    List (List Char) := g.map Prod.fst

/-- Partition keys of one topic's dict, in insertion order. -/
def keysP (parts : List (Nat × List StreamRecord)) : List Nat :=
  parts.map Prod.fst

/-- A store whose coalesce and delete always succeed. -/
def stOk : Store := ⟨fun _ _ => Except.ok (), fun _ _ => Except.ok ()⟩

/-- A store whose coalesce succeeds and whose delete always raises. -/
def stDelFail : Store :=
  ⟨fun _ _ => Except.ok (), fun _ _ => Except.error ⟨['x']⟩⟩

/-- A store whose coalesce always raises (the delete would succeed, but
is never reached). -/
def stCoalFail : Store :=
  ⟨fun _ _ => Except.error ⟨['y']⟩, fun _ _ => Except.ok ()⟩

/-- Test fixture: a record of size 7. -/
def recA : StreamRecord := ⟨['k'], ['t'], 0, 0, 1, 7⟩

/-- Test fixture: a record of size 1. -/
def recB : StreamRecord := ⟨['l'], ['t'], 0, 2, 3, 1⟩

/-- Test fixture: another record of size 1. -/
def recC : StreamRecord := ⟨['m'], ['t'], 0, 4, 5, 1⟩

/-- Test fixture: the record parsed from the key `c/t_1_2-3.jsonl.gz`. -/
def recT : StreamRecord := ⟨"c/t_1_2-3.jsonl.gz".toList, ['t'], 1, 2, 3, 5⟩

/-- Test fixture: the listing entry with key `c/t_1_2-3.jsonl.gz`. -/
def sumT : Summary := ⟨"c/t_1_2-3.jsonl.gz".toList, 5⟩

/-- Test fixture: the record parsed from the key `c/t_1_5-6.jsonl.gz`. -/
def recU : StreamRecord := ⟨"c/t_1_5-6.jsonl.gz".toList, ['t'], 1, 5, 6, 9⟩

/-- Test fixture: the listing entry with key `c/t_1_5-6.jsonl.gz`. -/
def sumU : Summary := ⟨"c/t_1_5-6.jsonl.gz".toList, 9⟩

theorem dropLit_self (l r : List Char) : dropLit l (l ++ r) = some r := by
  induction l with
  | nil => rfl
  | cons c cs ih => simp [dropLit, ih]

theorem dropLit_eq_some {l t r : List Char} (h : dropLit l t = some r) :
    t = l ++ r := by
  induction l generalizing t with
  | nil => simpa [dropLit] using h
  | cons c cs ih =>
    cases t with
    | nil => simp [dropLit] at h
    | cons d ds =>
      by_cases hcd : c = d
      · subst hcd
        simp only [dropLit, if_pos rfl] at h
        simpa using ih h
      · simp [dropLit, hcd] at h

theorem takeWhile_all_append (q : Char → Bool) (l : List Char) (c : Char)
    (r : List Char) (hl : ∀ x ∈ l, q x = true) (hc : q c = false) :
    (l ++ c :: r).takeWhile q = l ∧ (l ++ c :: r).dropWhile q = c :: r := by
  induction l with
  | nil => simp [List.takeWhile, List.dropWhile, hc]
  | cons x xs ih =>
    have hx : q x = true := hl x (by simp)
    have ih2 := ih (fun y hy => hl y (by simp [hy]))
    simp [List.takeWhile, List.dropWhile, hx, ih2.1, ih2.2]

theorem grabDigits_app (sep : Char) (hsep : sep.isDigit = false)
    (d rest : List Char) (hd : ∀ c ∈ d, c.isDigit = true) (hne : d ≠ []) :
    grabDigits sep (d ++ sep :: rest) = some (d, rest) := by
  have h := takeWhile_all_append Char.isDigit d sep rest hd hsep
  simp [grabDigits, h.1, h.2, hne]

theorem grabDigits_eq_some {sep : Char} {l d rest : List Char}
    (h : grabDigits sep l = some (d, rest)) :
    l = d ++ sep :: rest ∧ (∀ c ∈ d, c.isDigit = true) ∧ d ≠ [] := by
  unfold grabDigits at h
  split at h
  next c r hdw =>
    split at h
    next hc =>
      obtain ⟨hd, hrest⟩ := Prod.mk.inj (Option.some.inj h)
      refine ⟨?_, ?_, ?_⟩
      · rw [← hd, ← hc.1, ← hrest, ← hdw, List.takeWhile_append_dropWhile]
      · intro x hx
        exact List.mem_takeWhile_imp (hd ▸ hx)
      · exact hd ▸ hc.2
    next hc => exact absurd h (by simp)
  next hdw => exact absurd h (by simp)

theorem parseTail_embed (sid p a b : List Char)
    (hsw : ∀ c ∈ sid, isWordDot c = true) (hs : sid ≠ [])
    (hpd : ∀ c ∈ p, c.isDigit = true) (hp : p ≠ [])
    (had : ∀ c ∈ a, c.isDigit = true) (ha : a ≠ [])
    (hbd : ∀ c ∈ b, c.isDigit = true) (hb : b ≠ []) :
    parseTail (goodKeyTail sid p a b) = some (sid, p, a, b) := by
  have h9 : List.reverse gzSuffix = gzSuffixRev := rfl
  have hrev : (goodKeyTail sid p a b).reverse
      = gzSuffixRev ++ (b.reverse ++ '-' :: (a.reverse ++ '_' ::
        (p.reverse ++ '_' :: sid.reverse))) := by
    simp [goodKeyTail, List.reverse_append, ← h9, gzSuffix]
  have hbne : b.reverse ≠ [] := fun hcon => hb (List.reverse_eq_nil_iff.mp hcon)
  have hane : a.reverse ≠ [] := fun hcon => ha (List.reverse_eq_nil_iff.mp hcon)
  have hpne : p.reverse ≠ [] := fun hcon => hp (List.reverse_eq_nil_iff.mp hcon)
  have hsne : sid.reverse ≠ [] := fun hcon => hs (List.reverse_eq_nil_iff.mp hcon)
  have hgb := grabDigits_app '-' (by decide) b.reverse
    (a.reverse ++ '_' :: (p.reverse ++ '_' :: sid.reverse))
    (fun c hc => hbd c (List.mem_reverse.mp hc)) hbne
  have hga := grabDigits_app '_' (by decide) a.reverse
    (p.reverse ++ '_' :: sid.reverse)
    (fun c hc => had c (List.mem_reverse.mp hc)) hane
  have hgp := grabDigits_app '_' (by decide) p.reverse sid.reverse
    (fun c hc => hpd c (List.mem_reverse.mp hc)) hpne
  have hall : (sid.reverse).all isWordDot = true := by
    rw [List.all_eq_true]
    intro c hc
    exact hsw c (List.mem_reverse.mp hc)
  simp only [parseTail, hrev, dropLit_self, hgb, hga, hgp, Option.some_bind]
  simp [hall, hsne]

theorem parseTail_no_slash {t : List Char}
    {q : List Char × List Char × List Char × List Char}
    (h : parseTail t = some q) : '/' ∉ t := by
  unfold parseTail at h
  rw [Option.bind_eq_some] at h
  obtain ⟨r1, hdl, h⟩ := h
  rw [Option.bind_eq_some] at h
  obtain ⟨br, hgb, h⟩ := h
  obtain ⟨b1, brest⟩ := br
  rw [Option.bind_eq_some] at h
  obtain ⟨ar, hga, h⟩ := h
  obtain ⟨a1, arest⟩ := ar
  rw [Option.bind_eq_some] at h
  obtain ⟨pr, hgp, h⟩ := h
  obtain ⟨p1, s1⟩ := pr
  dsimp only at hga hgp h
  have hcond : s1 ≠ [] ∧ s1.all isWordDot := by
    by_contra hcon
    rw [if_neg hcon] at h
    exact Option.noConfusion h
  have ht := dropLit_eq_some hdl
  obtain ⟨hr1, hbd, -⟩ := grabDigits_eq_some hgb
  obtain ⟨hr3, had, -⟩ := grabDigits_eq_some hga
  obtain ⟨hr5, hpd, -⟩ := grabDigits_eq_some hgp
  intro hmem
  have hmem2 : '/' ∈ t.reverse := List.mem_reverse.mpr hmem
  rw [ht, hr1] at hmem2
  simp only [List.mem_append, List.mem_cons] at hmem2
  rcases hmem2 with hgz | hb1 | hsep | hrest
  · exact absurd hgz (by decide)
  · exact absurd (hbd _ hb1) (by decide)
  · exact absurd hsep (by decide)
  · rw [hr3] at hrest
    simp only [List.mem_append, List.mem_cons] at hrest
    rcases hrest with ha1 | hsep | hrest
    · exact absurd (had _ ha1) (by decide)
    · exact absurd hsep (by decide)
    · rw [hr5] at hrest
      simp only [List.mem_append, List.mem_cons] at hrest
      rcases hrest with hp1 | hsep | hs1
      · exact absurd (hpd _ hp1) (by decide)
      · exact absurd hsep (by decide)
      · have := List.all_eq_true.mp hcond.2 _ hs1
        exact absurd this (by decide)

theorem allMatches_no_slash {l : List Char} (h : ∀ c ∈ l, c ≠ '/') :
    allMatches l = [] := by
  induction l with
  | nil => rfl
  | cons c rest ih =>
    have hc : ¬(c = '/') := h c (by simp)
    simp [allMatches, hc, ih (fun x hx => h x (by simp [hx]))]

theorem good_no_slash (sid p a b : List Char)
    (hsw : ∀ c ∈ sid, isWordDot c = true)
    (hpd : ∀ c ∈ p, c.isDigit = true)
    (had : ∀ c ∈ a, c.isDigit = true)
    (hbd : ∀ c ∈ b, c.isDigit = true) :
    ∀ c ∈ goodKeyTail sid p a b, c ≠ '/' := by
  intro c hc hceq
  subst hceq
  simp only [goodKeyTail, List.mem_append, List.mem_cons] at hc
  rcases hc with hx | hx | hx | hx | hx | hx | hx | hx
  · exact absurd (hsw _ hx) (by decide)
  · exact absurd hx (by decide)
  · exact absurd (hpd _ hx) (by decide)
  · exact absurd hx (by decide)
  · exact absurd (had _ hx) (by decide)
  · exact absurd hx (by decide)
  · exact absurd (hbd _ hx) (by decide)
  · exact absurd hx (by decide)

theorem allMatches_embed (pre sid p a b : List Char)
    (hsw : ∀ c ∈ sid, isWordDot c = true) (hs : sid ≠ [])
    (hpd : ∀ c ∈ p, c.isDigit = true) (hp : p ≠ [])
    (had : ∀ c ∈ a, c.isDigit = true) (ha : a ≠ [])
    (hbd : ∀ c ∈ b, c.isDigit = true) (hb : b ≠ []) :
    allMatches (goodKey pre sid p a b) = [(sid, p, a, b)] := by
  unfold goodKey
  induction pre with
  | nil =>
    have hpt := parseTail_embed sid p a b hsw hs hpd hp had ha hbd hb
    have hrest := allMatches_no_slash (good_no_slash sid p a b hsw hpd had hbd)
    simp [allMatches, hpt, hrest]
  | cons c cs ih =>
    by_cases hc : c = '/'
    · subst hc
      have hfail : parseTail (cs ++ '/' :: goodKeyTail sid p a b) = none := by
        cases hres : parseTail (cs ++ '/' :: goodKeyTail sid p a b) with
        | none => rfl
        | some quad =>
          have hin : '/' ∈ cs ++ '/' :: goodKeyTail sid p a b := by simp
          exact absurd hin (parseTail_no_slash hres)
      simp [allMatches, hfail, ih]
    · simp [allMatches, hc, ih]

/-- Round-trip of the key parser on a well-formed key: for any key of the
shape `<pre>/<sid>_<p>_<a>-<b>.jsonl.gz` (with `sid` a nonempty word-dot
string and `p`, `a`, `b` nonempty digit strings), the parsing step of
`grouped_object_summaries` builds the record with exactly the embedded
fields plus the listing size. -/
theorem parseSummary_embed (pre sid p a b : List Char) (n : Nat)
    (hsw : ∀ c ∈ sid, isWordDot c = true) (hs : sid ≠ [])
    (hpd : ∀ c ∈ p, c.isDigit = true) (hp : p ≠ [])
    (had : ∀ c ∈ a, c.isDigit = true) (ha : a ≠ [])
    (hbd : ∀ c ∈ b, c.isDigit = true) (hb : b ≠ []) :
    parseSummary ⟨goodKey pre sid p a b, n⟩
      = some ⟨goodKey pre sid p a b,
          sid, digitsToNat p, digitsToNat a, digitsToNat b, n⟩ := by
  have hm := allMatches_embed pre sid p a b hsw hs hpd hp had ha hbd hb
  simp [parseSummary, hm]

theorem allMatches_length_le_one (key : List Char) :
    (allMatches key).length ≤ 1 := by
  induction key with
  | nil => simp [allMatches]
  | cons c rest ih =>
    by_cases hc : c = '/'
    · subst hc
      cases hres : parseTail rest with
      | none => simpa [allMatches, hres] using ih
      | some q =>
        have hns := parseTail_no_slash hres
        have hz : allMatches rest = [] :=
          allMatches_no_slash (fun x hx hxeq => hns (hxeq ▸ hx))
        simp [allMatches, hres, hz]
    · simpa [allMatches, hc] using ih

theorem goBatch_flatten (ms mc : Nat) (objs : List StreamRecord) :
    ∀ (cur : List StreamRecord) (sz ct : Nat),
      (goBatch ms mc objs cur sz ct).flatten = cur ++ objs := by
  induction objs with
  | nil =>
    intro cur sz ct
    by_cases h : 0 < cur.length
    · simp [goBatch, h]
    · have hnil : cur = [] := List.length_eq_zero.mp (Nat.eq_zero_of_not_pos h)
      subst hnil
      simp [goBatch]
  | cons o objs ih =>
    intro cur sz ct
    by_cases h : ms ≤ sz + o.size ∨ mc ≤ ct + 1
    · simp [goBatch, h, ih]
    · simp [goBatch, h, ih]

theorem goBatch_ne_nil (ms mc : Nat) (objs : List StreamRecord) :
    ∀ (cur : List StreamRecord) (sz ct : Nat),
      ∀ b ∈ goBatch ms mc objs cur sz ct, b ≠ [] := by
  induction objs with
  | nil =>
    intro cur sz ct b hb
    by_cases h : 0 < cur.length
    · simp only [goBatch, if_pos h, List.mem_singleton] at hb
      subst hb
      exact List.ne_nil_of_length_pos h
    · simp [goBatch, h] at hb
  | cons o objs ih =>
    intro cur sz ct b hb
    by_cases h : ms ≤ sz + o.size ∨ mc ≤ ct + 1
    · simp only [goBatch, if_pos h, List.mem_cons] at hb
      rcases hb with hb | hb
      · subst hb
        simp
      · exact ih [] 0 0 b hb
    · simp only [goBatch, if_neg h] at hb
      exact ih (cur ++ [o]) (sz + o.size) (ct + 1) b hb

theorem goBatch_length_le (ms mc : Nat) (objs : List StreamRecord) :
    ∀ (cur : List StreamRecord) (sz ct : Nat), ct = cur.length →
      cur.length < mc →
      ∀ b ∈ goBatch ms mc objs cur sz ct, b.length ≤ mc := by
  induction objs with
  | nil =>
    intro cur sz ct hct hlt b hb
    by_cases h : 0 < cur.length
    · simp only [goBatch, if_pos h, List.mem_singleton] at hb
      subst hb
      exact Nat.le_of_lt hlt
    · simp [goBatch, h] at hb
  | cons o objs ih =>
    intro cur sz ct hct hlt b hb
    by_cases h : ms ≤ sz + o.size ∨ mc ≤ ct + 1
    · simp only [goBatch, if_pos h, List.mem_cons] at hb
      rcases hb with hb | hb
      · subst hb
        simp only [List.length_append, List.length_singleton]
        exact Nat.succ_le_of_lt hlt
      · exact ih [] 0 0 rfl (by simpa using Nat.lt_of_le_of_lt (Nat.zero_le _) hlt) b hb
    · simp only [goBatch, if_neg h] at hb
      have hnew : (cur ++ [o]).length < mc := by
        have h2 : ¬ mc ≤ ct + 1 := fun hcon => h (Or.inr hcon)
        have := Nat.lt_of_not_le h2
        simpa [hct] using this
      exact ih (cur ++ [o]) (sz + o.size) (ct + 1) (by simp [hct]) hnew b hb

theorem goBatch_closed_bound (ms mc : Nat) (objs : List StreamRecord) :
    ∀ (cur : List StreamRecord) (sz ct : Nat), sz = sumSizes cur →
      ct = cur.length →
      ∀ b ∈ (goBatch ms mc objs cur sz ct).dropLast,
        ms ≤ sumSizes b ∨ mc ≤ b.length := by
  induction objs with
  | nil =>
    intro cur sz ct hsz hct b hb
    by_cases h : 0 < cur.length
    · simp [goBatch, h] at hb
    · simp [goBatch, h] at hb
  | cons o objs ih =>
    intro cur sz ct hsz hct b hb
    by_cases h : ms ≤ sz + o.size ∨ mc ≤ ct + 1
    · simp only [goBatch, if_pos h] at hb
      rcases hrest : goBatch ms mc objs [] 0 0 with _ | ⟨r, rs⟩
      · rw [hrest] at hb
        simp at hb
      · rw [hrest] at hb
        rw [List.dropLast_cons_of_ne_nil (by simp)] at hb
        rcases List.mem_cons.mp hb with hb | hb
        · subst hb
          have hsum : sumSizes (cur ++ [o]) = sz + o.size := by
            simp [sumSizes, hsz]
          have hlen : (cur ++ [o]).length = ct + 1 := by simp [hct]
          rw [hsum, hlen]
          exact h
        · have := ih [] 0 0 rfl rfl b
          rw [hrest] at this
          exact this hb
    · simp only [goBatch, if_neg h] at hb
      exact ih (cur ++ [o]) (sz + o.size) (ct + 1)
        (by simp [sumSizes, hsz]) (by simp [hct]) b hb

theorem goBatch_small_sizes (ms mc : Nat) (objs : List StreamRecord) :
    ∀ (cur : List StreamRecord) (sz ct : Nat), sz = sumSizes cur →
      (∀ r ∈ cur, r.size < ms) →
      ∀ b ∈ goBatch ms mc objs cur sz ct, ∀ r ∈ b.dropLast, r.size < ms := by
  induction objs with
  | nil =>
    intro cur sz ct hsz hcur b hb r hr
    by_cases h : 0 < cur.length
    · simp only [goBatch, if_pos h, List.mem_singleton] at hb
      subst hb
      exact hcur r (List.dropLast_subset _ hr)
    · simp [goBatch, h] at hb
  | cons o objs ih =>
    intro cur sz ct hsz hcur b hb r hr
    by_cases h : ms ≤ sz + o.size ∨ mc ≤ ct + 1
    · simp only [goBatch, if_pos h, List.mem_cons] at hb
      rcases hb with hb | hb
      · subst hb
        rw [List.dropLast_concat] at hr
        exact hcur r hr
      · exact ih [] 0 0 rfl (by simp) b hb r hr
    · have h2 : ¬ ms ≤ sz + o.size := fun hcon => h (Or.inl hcon)
      have ho : o.size < ms :=
        Nat.lt_of_le_of_lt (Nat.le_add_left _ _) (Nat.lt_of_not_le h2)
      simp only [goBatch, if_neg h] at hb
      refine ih (cur ++ [o]) (sz + o.size) (ct + 1) (by simp [sumSizes, hsz]) ?_ b hb r hr
      intro x hx
      rcases List.mem_append.mp hx with hx | hx
      · exact hcur x hx
      · rw [List.mem_singleton.mp hx]
        exact ho

theorem batchGroup_flatten (ms mc : Nat) (g : List StreamRecord) :
    (batchGroup ms mc g).flatten = g := by
  simpa using goBatch_flatten ms mc g [] 0 0

theorem batchGroup_ne_nil (ms mc : Nat) (g : List StreamRecord) :
    ∀ b ∈ batchGroup ms mc g, b ≠ [] :=
  goBatch_ne_nil ms mc g [] 0 0

theorem batchGroup_length_le {mc : Nat} (ms : Nat) (hmc : 0 < mc)
    (g : List StreamRecord) : ∀ b ∈ batchGroup ms mc g, b.length ≤ mc :=
  goBatch_length_le ms mc g [] 0 0 rfl (by simpa using hmc)

theorem batchGroup_closed_bound (ms mc : Nat) (g : List StreamRecord) :
    ∀ b ∈ (batchGroup ms mc g).dropLast, ms ≤ sumSizes b ∨ mc ≤ b.length :=
  goBatch_closed_bound ms mc g [] 0 0 rfl rfl

theorem batchGroup_small_sizes (ms mc : Nat) (g : List StreamRecord) :
    ∀ b ∈ batchGroup ms mc g, ∀ r ∈ b.dropLast, r.size < ms :=
  goBatch_small_sizes ms mc g [] 0 0 rfl (by simp)

theorem batchGroup_singleton (ms mc : Nat) (r : StreamRecord) :
    batchGroup ms mc [r] = [[r]] := by
  unfold batchGroup goBatch
  by_cases h : ms ≤ 0 + r.size ∨ mc ≤ 0 + 1
  · simp [goBatch, h]
  · simp [goBatch, h]

theorem mem_insOrd (r x : StreamRecord) (l : List StreamRecord) :
    x ∈ insOrd r l ↔ x = r ∨ x ∈ l := by
  induction l with
  | nil => simp [insOrd]
  | cons y ys ih =>
    by_cases h : y.start_offset ≤ r.start_offset
    · simp only [insOrd, if_pos h, List.mem_cons, ih]
      tauto
    · simp [insOrd, if_neg h]

theorem pairwise_insOrd (r : StreamRecord) (l : List StreamRecord)
    (hl : l.Pairwise (fun x y => x.start_offset ≤ y.start_offset)) :
    (insOrd r l).Pairwise (fun x y => x.start_offset ≤ y.start_offset) := by
  induction l with
  | nil => simp [insOrd]
  | cons y ys ih =>
    have hl' := List.pairwise_cons.mp hl
    by_cases h : y.start_offset ≤ r.start_offset
    · simp only [insOrd, if_pos h]
      rw [List.pairwise_cons]
      refine ⟨?_, ih hl'.2⟩
      intro x hx
      rcases (mem_insOrd r x ys).mp hx with rfl | hx
      · exact h
      · exact hl'.1 x hx
    · simp only [insOrd, if_neg h]
      rw [List.pairwise_cons]
      refine ⟨?_, hl⟩
      intro x hx
      rcases List.mem_cons.mp hx with rfl | hx
      · exact Nat.le_of_lt (Nat.lt_of_not_le h)
      · exact Nat.le_trans (Nat.le_of_lt (Nat.lt_of_not_le h)) (hl'.1 x hx)

theorem filter_insOrd (v : Nat) (r : StreamRecord) (l : List StreamRecord)
    (hl : l.Pairwise (fun x y => x.start_offset ≤ y.start_offset)) :
    (insOrd r l).filter (fun x => x.start_offset == v)
      = l.filter (fun x => x.start_offset == v)
        ++ if r.start_offset = v then [r] else [] := by
  induction l with
  | nil =>
    by_cases hv : r.start_offset = v <;> simp [insOrd, hv]
  | cons y ys ih =>
    have hl' := List.pairwise_cons.mp hl
    by_cases h : y.start_offset ≤ r.start_offset
    · simp only [insOrd, if_pos h]
      rw [List.filter_cons, List.filter_cons]
      by_cases hy : y.start_offset = v
      · simp [hy, ih hl'.2]
      · simp [hy, ih hl'.2]
    · simp only [insOrd, if_neg h]
      by_cases hv : r.start_offset = v
      · have hfe : (y :: ys).filter (fun x => x.start_offset == v) = [] := by
          rw [List.filter_eq_nil_iff]
          intro x hx
          have hgt : v < x.start_offset := by
            rcases List.mem_cons.mp hx with rfl | hx
            · exact hv ▸ Nat.lt_of_not_le h
            · exact Nat.lt_of_lt_of_le (hv ▸ Nat.lt_of_not_le h) (hl'.1 x hx)
          simp [Nat.ne_of_gt hgt]
        rw [List.filter_cons, hfe]
        simp [hv]
      · rw [List.filter_cons]
        simp [hv]

theorem sortFold_spec (input : List StreamRecord) :
    ∀ acc : List StreamRecord,
      acc.Pairwise (fun x y => x.start_offset ≤ y.start_offset) →
      (input.foldl (fun acc r => insOrd r acc) acc).Pairwise
          (fun x y => x.start_offset ≤ y.start_offset)
        ∧ ∀ v : Nat,
            (input.foldl (fun acc r => insOrd r acc) acc).filter
                (fun x => x.start_offset == v)
              = acc.filter (fun x => x.start_offset == v)
                ++ input.filter (fun x => x.start_offset == v) := by
  induction input with
  | nil =>
    intro acc hacc
    exact ⟨hacc, fun v => by simp⟩
  | cons r rs ih =>
    intro acc hacc
    have hstep : (r :: rs).foldl (fun acc r => insOrd r acc) acc
        = rs.foldl (fun acc r => insOrd r acc) (insOrd r acc) := rfl
    have hp := pairwise_insOrd r acc hacc
    obtain ⟨ih1, ih2⟩ := ih (insOrd r acc) hp
    rw [hstep]
    refine ⟨ih1, ?_⟩
    intro v
    rw [ih2 v, filter_insOrd v r acc hacc, List.filter_cons, List.append_assoc]
    by_cases hv : r.start_offset = v
    · simp [hv]
    · simp [hv]

theorem sortFold_mem (input : List StreamRecord) :
    ∀ (acc : List StreamRecord) (x : StreamRecord),
      x ∈ input.foldl (fun acc r => insOrd r acc) acc ↔ x ∈ acc ∨ x ∈ input := by
  induction input with
  | nil => intro acc x; simp
  | cons r rs ih =>
    intro acc x
    have hstep : (r :: rs).foldl (fun acc r => insOrd r acc) acc
        = rs.foldl (fun acc r => insOrd r acc) (insOrd r acc) := rfl
    rw [hstep, ih (insOrd r acc) x, mem_insOrd]
    simp only [List.mem_cons]
    tauto

theorem sortByStart_pairwise (l : List StreamRecord) :
    (sortByStart l).Pairwise (fun x y => x.start_offset ≤ y.start_offset) :=
  (sortFold_spec l [] (by simp)).1

theorem sortByStart_filter (l : List StreamRecord) (v : Nat) :
    (sortByStart l).filter (fun x => x.start_offset == v)
      = l.filter (fun x => x.start_offset == v) := by
  have := (sortFold_spec l [] (by simp)).2 v
  simpa [sortByStart] using this

theorem mem_sortByStart (l : List StreamRecord) (x : StreamRecord) :
    x ∈ sortByStart l ↔ x ∈ l := by
  have := sortFold_mem l [] x
  simpa [sortByStart] using this

theorem lookP_addRecPart (r : StreamRecord)
    (parts : List (Nat × List StreamRecord)) (p : Nat) :
    lookP (addRecPart r parts) p
      = if p = r.partition then some ((lookP parts p).getD [] ++ [r])
        else lookP parts p := by
  induction parts with
  | nil =>
    by_cases hp : p = r.partition
    · simp [addRecPart, lookP, hp]
    · simp [addRecPart, lookP, hp, Ne.symm hp]
  | cons q rest ih =>
    obtain ⟨q1, l⟩ := q
    by_cases hq : q1 = r.partition
    · by_cases hp : p = r.partition
      · have hq1p : q1 = p := by rw [hq, hp]
        simp [addRecPart, lookP, hq, hp, hq1p]
      · have hq1p : ¬ q1 = p := fun hcon => hp (hcon ▸ hq)
        have hrp : ¬ r.partition = p := hq ▸ hq1p
        simp [addRecPart, lookP, hq, hp, hq1p, hrp]
    · by_cases hq1p : q1 = p
      · have hp : ¬ p = r.partition := fun hcon => hq (by rw [hq1p, hcon])
        simp [addRecPart, lookP, hq, hq1p, hp]
      · simp [addRecPart, lookP, hq, hq1p, ih]

theorem lookT_addRec (r : StreamRecord)
    (g : List (List Char × List (Nat × List StreamRecord))) (t : List Char) :
    lookT (addRec r g) t
      = if t = r.topic then some (addRecPart r ((lookT g t).getD []))
        else lookT g t := by
  induction g with
  | nil =>
    by_cases ht : t = r.topic
    · simp [addRec, lookT, ht, addRecPart]
    · simp [addRec, lookT, ht, Ne.symm ht]
  | cons e rest ih =>
    obtain ⟨t1, parts⟩ := e
    by_cases he : t1 = r.topic
    · by_cases ht : t = r.topic
      · have ht1 : t1 = t := by rw [he, ht]
        simp [addRec, lookT, he, ht, ht1]
      · have ht1 : ¬ t1 = t := fun hcon => ht (hcon ▸ he)
        have hrt : ¬ r.topic = t := he ▸ ht1
        simp [addRec, lookT, he, ht, ht1, hrt]
    · by_cases ht1 : t1 = t
      · have ht : ¬ t = r.topic := fun hcon => he (by rw [ht1, hcon])
        simp [addRec, lookT, he, ht1, ht]
      · simp [addRec, lookT, he, ht1, ih]

theorem lookP_getD (o : Option (List (Nat × List StreamRecord))) (p : Nat) :
    lookP (o.getD []) p = o.bind (fun parts => lookP parts p) := by
  cases o <;> simp [lookP]

theorem entry_addRec (r : StreamRecord)
    (g : List (List Char × List (Nat × List StreamRecord)))
    (t : List Char) (p : Nat) :
    entry (addRec r g) t p
      = if t = r.topic ∧ p = r.partition then some ((entry g t p).getD [] ++ [r])
        else entry g t p := by
  unfold entry
  rw [lookT_addRec]
  by_cases ht : t = r.topic
  · rw [if_pos ht, Option.some_bind, lookP_addRecPart, lookP_getD]
    by_cases hp : p = r.partition
    · simp [ht, hp]
    · simp [ht, hp]
  · simp [ht]

theorem km_iff (r : StreamRecord) (t : List Char) (p : Nat) :
    ((r.topic == t && r.partition == p) = true) ↔ (t = r.topic ∧ p = r.partition) := by
  rw [Bool.and_eq_true, beq_iff_eq, beq_iff_eq]
  constructor
  · rintro ⟨h1, h2⟩
    exact ⟨h1.symm, h2.symm⟩
  · rintro ⟨h1, h2⟩
    exact ⟨h1.symm, h2.symm⟩

theorem entry_foldl_getD (recs : List StreamRecord) :
    ∀ (g : List (List Char × List (Nat × List StreamRecord)))
      (t : List Char) (p : Nat),
      (entry (recs.foldl (fun g r => addRec r g) g) t p).getD []
        = (entry g t p).getD []
          ++ recs.filter (fun r => r.topic == t && r.partition == p) := by
  induction recs with
  | nil =>
    intro g t p
    simp
  | cons r rs ih =>
    intro g t p
    have hstep : (r :: rs).foldl (fun g r => addRec r g) g
        = rs.foldl (fun g r => addRec r g) (addRec r g) := rfl
    rw [hstep, ih (addRec r g) t p, entry_addRec, List.filter_cons]
    by_cases hc : t = r.topic ∧ p = r.partition
    · rw [if_pos hc, if_pos ((km_iff r t p).mpr hc)]
      simp
    · rw [if_neg hc, if_neg (fun hcon => hc ((km_iff r t p).mp hcon))]

theorem entry_foldl_none (recs : List StreamRecord) :
    ∀ (g : List (List Char × List (Nat × List StreamRecord)))
      (t : List Char) (p : Nat),
      entry (recs.foldl (fun g r => addRec r g) g) t p = none
        ↔ (entry g t p = none
            ∧ recs.filter (fun r => r.topic == t && r.partition == p) = []) := by
  induction recs with
  | nil =>
    intro g t p
    simp
  | cons r rs ih =>
    intro g t p
    have hstep : (r :: rs).foldl (fun g r => addRec r g) g
        = rs.foldl (fun g r => addRec r g) (addRec r g) := rfl
    rw [hstep, ih (addRec r g) t p, entry_addRec, List.filter_cons]
    by_cases hc : t = r.topic ∧ p = r.partition
    · rw [if_pos hc, if_pos ((km_iff r t p).mpr hc)]
      simp
    · rw [if_neg hc, if_neg (fun hcon => hc ((km_iff r t p).mp hcon))]

theorem mem_keysT_addRec (r : StreamRecord)
    (g : List (List Char × List (Nat × List StreamRecord))) (s : List Char) :
    s ∈ keysT (addRec r g) ↔ s ∈ keysT g ∨ s = r.topic := by
  induction g with
  | nil => simp [addRec, keysT]
  | cons e rest ih =>
    obtain ⟨t1, parts⟩ := e
    by_cases he : t1 = r.topic
    · have hred : addRec r ((t1, parts) :: rest) = (t1, addRecPart r parts) :: rest := by
        simp [addRec, he]
      rw [hred]
      simp only [keysT, List.map_cons, List.mem_cons]
      constructor
      · rintro (h1 | h1)
        · exact Or.inl (Or.inl h1)
        · exact Or.inl (Or.inr h1)
      · rintro ((h1 | h1) | h1)
        · exact Or.inl h1
        · exact Or.inr h1
        · exact Or.inl (he.symm ▸ h1)
    · have hred : addRec r ((t1, parts) :: rest) = (t1, parts) :: addRec r rest := by
        simp [addRec, he]
      rw [hred]
      simp only [keysT, List.map_cons, List.mem_cons] at ih ⊢
      rw [ih]
      tauto

theorem mem_keysP_addRecPart (r : StreamRecord)
    (parts : List (Nat × List StreamRecord)) (s : Nat) :
    s ∈ keysP (addRecPart r parts) ↔ s ∈ keysP parts ∨ s = r.partition := by
  induction parts with
  | nil => simp [addRecPart, keysP]
  | cons q rest ih =>
    obtain ⟨p1, l⟩ := q
    by_cases hq : p1 = r.partition
    · have hred : addRecPart r ((p1, l) :: rest) = (p1, l ++ [r]) :: rest := by
        simp [addRecPart, hq]
      rw [hred]
      simp only [keysP, List.map_cons, List.mem_cons]
      constructor
      · rintro (h1 | h1)
        · exact Or.inl (Or.inl h1)
        · exact Or.inl (Or.inr h1)
      · rintro ((h1 | h1) | h1)
        · exact Or.inl h1
        · exact Or.inr h1
        · exact Or.inl (hq.symm ▸ h1)
    · have hred : addRecPart r ((p1, l) :: rest) = (p1, l) :: addRecPart r rest := by
        simp [addRecPart, hq]
      rw [hred]
      simp only [keysP, List.map_cons, List.mem_cons] at ih ⊢
      rw [ih]
      tauto

theorem nodup_keysT_addRec (r : StreamRecord)
    (g : List (List Char × List (Nat × List StreamRecord)))
    (h : (keysT g).Nodup) : (keysT (addRec r g)).Nodup := by
  induction g with
  | nil => simp [addRec, keysT]
  | cons e rest ih =>
    obtain ⟨t1, parts⟩ := e
    have h2 : t1 ∉ keysT rest ∧ (keysT rest).Nodup := by
      simpa [keysT] using h
    by_cases he : t1 = r.topic
    · have hred : addRec r ((t1, parts) :: rest) = (t1, addRecPart r parts) :: rest := by
        simp [addRec, he]
      rw [hred]
      simp only [keysT, List.map_cons, List.nodup_cons]
      exact ⟨h2.1, h2.2⟩
    · have hred : addRec r ((t1, parts) :: rest) = (t1, parts) :: addRec r rest := by
        simp [addRec, he]
      rw [hred]
      simp only [keysT, List.map_cons, List.nodup_cons]
      refine ⟨?_, ih h2.2⟩
      intro hcon
      rcases (mem_keysT_addRec r rest t1).mp hcon with hx | hx
      · exact h2.1 hx
      · exact he hx

theorem nodup_keysP_addRecPart (r : StreamRecord)
    (parts : List (Nat × List StreamRecord))
    (h : (keysP parts).Nodup) : (keysP (addRecPart r parts)).Nodup := by
  induction parts with
  | nil => simp [addRecPart, keysP]
  | cons q rest ih =>
    obtain ⟨p1, l⟩ := q
    have h2 : p1 ∉ keysP rest ∧ (keysP rest).Nodup := by
      simpa [keysP] using h
    by_cases hq : p1 = r.partition
    · have hred : addRecPart r ((p1, l) :: rest) = (p1, l ++ [r]) :: rest := by
        simp [addRecPart, hq]
      rw [hred]
      simp only [keysP, List.map_cons, List.nodup_cons]
      exact ⟨h2.1, h2.2⟩
    · have hred : addRecPart r ((p1, l) :: rest) = (p1, l) :: addRecPart r rest := by
        simp [addRecPart, hq]
      rw [hred]
      simp only [keysP, List.map_cons, List.nodup_cons]
      refine ⟨?_, ih h2.2⟩
      intro hcon
      rcases (mem_keysP_addRecPart r rest p1).mp hcon with hx | hx
      · exact h2.1 hx
      · exact hq hx

theorem inner_nodup_addRec (r : StreamRecord)
    (g : List (List Char × List (Nat × List StreamRecord)))
    (h : ∀ e ∈ g, (keysP e.2).Nodup) :
    ∀ e ∈ addRec r g, (keysP e.2).Nodup := by
  induction g with
  | nil =>
    intro e he
    simp only [addRec, List.mem_singleton] at he
    subst he
    simp [keysP]
  | cons q rest ih =>
    obtain ⟨t1, parts⟩ := q
    by_cases he : t1 = r.topic
    · have hred : addRec r ((t1, parts) :: rest) = (t1, addRecPart r parts) :: rest := by
        simp [addRec, he]
      rw [hred]
      intro e hme
      rcases List.mem_cons.mp hme with rfl | hme
      · exact nodup_keysP_addRecPart r parts (h (t1, parts) (by simp))
      · exact h e (by simp [hme])
    · have hred : addRec r ((t1, parts) :: rest) = (t1, parts) :: addRec r rest := by
        simp [addRec, he]
      rw [hred]
      intro e hme
      rcases List.mem_cons.mp hme with rfl | hme
      · exact h (t1, parts) (by simp)
      · exact ih (fun e2 he2 => h e2 (by simp [he2])) e hme

theorem nodup_keysT_foldl (recs : List StreamRecord) :
    ∀ g, (keysT g).Nodup →
      (keysT (recs.foldl (fun g r => addRec r g) g)).Nodup := by
  induction recs with
  | nil => intro g h; exact h
  | cons r rs ih =>
    intro g h
    exact ih (addRec r g) (nodup_keysT_addRec r g h)

theorem inner_nodup_foldl (recs : List StreamRecord) :
    ∀ g, (∀ e ∈ g, (keysP e.2).Nodup) →
      ∀ e ∈ recs.foldl (fun g r => addRec r g) g, (keysP e.2).Nodup := by
  induction recs with
  | nil => intro g h; exact h
  | cons r rs ih =>
    intro g h
    exact ih (addRec r g) (inner_nodup_addRec r g h)

theorem lookT_of_mem {g : List (List Char × List (Nat × List StreamRecord))}
    {t : List Char} {parts : List (Nat × List StreamRecord)}
    (hnd : (keysT g).Nodup) (hm : (t, parts) ∈ g) : lookT g t = some parts := by
  induction g with
  | nil => simp at hm
  | cons e rest ih =>
    obtain ⟨t1, parts1⟩ := e
    have h2 : t1 ∉ keysT rest ∧ (keysT rest).Nodup := by
      simpa [keysT] using hnd
    rcases List.mem_cons.mp hm with heq | hm2
    · obtain ⟨h3, h4⟩ := Prod.mk.inj heq.symm
      simp [lookT, h3, h4]
    · have htne : t1 ≠ t := by
        intro hcon
        subst hcon
        exact h2.1 (by simpa [keysP, keysT] using List.mem_map_of_mem Prod.fst hm2)
      simp only [lookT, if_neg htne]
      exact ih h2.2 hm2

theorem lookP_of_mem {parts : List (Nat × List StreamRecord)}
    {p : Nat} {l : List StreamRecord}
    (hnd : (keysP parts).Nodup) (hm : (p, l) ∈ parts) : lookP parts p = some l := by
  induction parts with
  | nil => simp at hm
  | cons q rest ih =>
    obtain ⟨p1, l1⟩ := q
    have h2 : p1 ∉ keysP rest ∧ (keysP rest).Nodup := by
      simpa [keysP] using hnd
    rcases List.mem_cons.mp hm with heq | hm2
    · obtain ⟨h3, h4⟩ := Prod.mk.inj heq.symm
      simp [lookP, h3, h4]
    · have hpne : p1 ≠ p := by
        intro hcon
        subst hcon
        exact h2.1 (by simpa [keysP] using List.mem_map_of_mem Prod.fst hm2)
      simp only [lookP, if_neg hpne]
      exact ih h2.2 hm2

/-- Characterization of every group the grouping stage produces: the
group stored under `(t, p)` is exactly the stable sort by `start_offset`
of the parsed records with that topic and partition, taken in listing
order, and it is non-empty. -/
theorem grouped_mem {summaries : List Summary} {t : List Char}
    {partsS : List (Nat × List StreamRecord)} {p : Nat} {l : List StreamRecord}
    (h1 : (t, partsS) ∈ grouped_object_summaries summaries)
    (h2 : (p, l) ∈ partsS) :
    l = sortByStart ((summaries.filterMap parseSummary).filter
        (fun r => r.topic == t && r.partition == p))
      ∧ (summaries.filterMap parseSummary).filter
          (fun r => r.topic == t && r.partition == p) ≠ [] := by
  unfold grouped_object_summaries at h1
  obtain ⟨e0, hm0, he0⟩ := List.mem_map.mp h1
  obtain ⟨t0, parts0⟩ := e0
  dsimp only at he0
  obtain ⟨ht0, hparts0⟩ := Prod.mk.inj he0
  rw [← hparts0] at h2
  obtain ⟨q0, hmq0, heq0⟩ := List.mem_map.mp h2
  obtain ⟨p0, l0⟩ := q0
  dsimp only at heq0
  obtain ⟨hp0, hl0⟩ := Prod.mk.inj heq0
  subst ht0
  subst hp0
  have hndT : (keysT ((summaries.filterMap parseSummary).foldl
      (fun g r => addRec r g) [])).Nodup :=
    nodup_keysT_foldl (summaries.filterMap parseSummary) [] (by simp [keysT])
  have hndP : ∀ e ∈ (summaries.filterMap parseSummary).foldl
      (fun g r => addRec r g) [], (keysP e.2).Nodup :=
    inner_nodup_foldl (summaries.filterMap parseSummary) [] (by simp)
  have hlt := lookT_of_mem hndT hm0
  have hlp := lookP_of_mem (hndP (t0, parts0) hm0) hmq0
  have hentry : entry ((summaries.filterMap parseSummary).foldl
      (fun g r => addRec r g) []) t0 p0 = some l0 := by
    unfold entry
    rw [hlt, Option.some_bind, hlp]
  have hA := entry_foldl_getD (summaries.filterMap parseSummary) [] t0 p0
  rw [hentry] at hA
  have hnone : entry ([] : List (List Char × List (Nat × List StreamRecord))) t0 p0 = none := rfl
  rw [hnone] at hA
  simp only [Option.getD_some, Option.getD_none, List.nil_append] at hA
  have hB := entry_foldl_none (summaries.filterMap parseSummary) [] t0 p0
  rw [hentry, hnone] at hB
  constructor
  · rw [← hl0, hA]
  · intro hcon
    have : (some l0 : Option (List StreamRecord)) = none := hB.mpr ⟨rfl, hcon⟩
    exact Option.noConfusion this

theorem coalesce_batch_skip (st : Store) (bucket : List Char)
    (batch : List StreamRecord) (h : ¬ 1 < batch.length) :
    coalesce_batch st bucket batch = (true, []) := by
  simp [coalesce_batch, h]

theorem coalesce_batch_delete_fail (st : Store) (bucket : List Char)
    (batch : List StreamRecord) (hlen : 1 < batch.length)
    (hok : st.coalesceRes bucket batch = Except.ok ())
    (e : ClientError) (herr : st.deleteRes bucket batch = Except.error e) :
    coalesce_batch st bucket batch
      = (false, [SOp.coalesceCall bucket batch, SOp.deleteCall bucket batch]) := by
  simp [coalesce_batch, hlen, hok, herr]

theorem coalesce_batch_coalesce_fail (st : Store) (bucket : List Char)
    (batch : List StreamRecord) (hlen : 1 < batch.length)
    (e : ClientError) (herr : st.coalesceRes bucket batch = Except.error e) :
    coalesce_batch st bucket batch
      = (false, [SOp.coalesceCall bucket batch]) := by
  simp [coalesce_batch, hlen, herr]

theorem successful_result_eq_false
    {results : List (List (List (Bool × List SOp)))}
    {tr : List (List (Bool × List SOp))} {pr : List (Bool × List SOp)}
    {o : Bool × List SOp}
    (h1 : tr ∈ results) (h2 : pr ∈ tr) (h3 : o ∈ pr) (h4 : o.1 = false) :
    successful_result results = false := by
  unfold successful_result
  rw [← Bool.not_eq_true]
  intro hcon
  have h5 := List.all_eq_true.mp hcon _ h1
  have h6 := List.all_eq_true.mp h5 _ h2
  have h7 := List.all_eq_true.mp h6 _ h3
  rw [h4] at h7
  exact Bool.noConfusion h7

/-- C6: for every group containing exactly one record, the Batcher emits
exactly one batch containing that single record (whatever the bounds),
and `coalesce_batch` reports success for that batch while invoking
neither the coalesce nor the delete store operation. -/
theorem c6_singleton_group_trivial_success (ms mc : Nat) (r : StreamRecord)
    (st : Store) (bucket : List Char) :
    batchGroup ms mc [r] = [[r]]
      ∧ coalesce_batch st bucket [r] = (true, []) := by
  refine ⟨batchGroup_singleton ms mc r, ?_⟩
  simp [coalesce_batch]

/-- C10: a record whose own size reaches `max_size` always closes the
batch it is added to (it is the last record of its batch); if it arrives
when the running batch is empty (i.e. it heads its batch) the batch is a
singleton, which the executor reports successful without invoking
coalesce or delete. -/
theorem c10_oversized_record_closes_batch (ms mc : Nat)
    (g : List StreamRecord) (st : Store) (bucket : List Char) :
    ∀ b ∈ batchGroup ms mc g,
      (∀ r ∈ b, ms ≤ r.size → b.getLast? = some r)
      ∧ (∀ r, b.head? = some r → ms ≤ r.size →
          b = [r] ∧ coalesce_batch st bucket b = (true, [])) := by
  intro b hb
  have hne := batchGroup_ne_nil ms mc g b hb
  have hsmall := batchGroup_small_sizes ms mc g b hb
  constructor
  · intro r hr hms
    have hrd : r ∉ b.dropLast := fun hcon =>
      absurd hms (Nat.not_le.mpr (hsmall r hcon))
    have hsplit := List.dropLast_append_getLast hne
    rw [← hsplit] at hr
    rcases List.mem_append.mp hr with hx | hx
    · exact absurd hx hrd
    · rw [List.mem_singleton.mp hx] at hrd ⊢
      rw [List.getLast?_eq_getLast b hne]
  · intro r hhead hms
    cases b with
    | nil => exact absurd rfl hne
    | cons x xs =>
      have hx : x = r := by simpa using hhead
      subst hx
      cases xs with
      | nil =>
        refine ⟨rfl, ?_⟩
        simp [coalesce_batch]
      | cons y ys =>
        have hmem : x ∈ (x :: y :: ys).dropLast := by
          rw [List.dropLast_cons_of_ne_nil (by simp)]
          simp
        exact absurd hms (Nat.not_le.mpr (hsmall x hmem))

/-- Witness for C10 at a concrete input: with `max_size = 5`, the size-7
record `recA` closes its batch (a singleton, since it heads the batch)
and the executor succeeds on it without store calls. -/
theorem c10_witness :
    ([recA] ∈ batchGroup 5 10 [recA, recB])
      ∧ [recA].getLast? = some recA
      ∧ [recA] = [recA]
      ∧ coalesce_batch stOk ['b'] [recA] = (true, []) := by
  have h := c10_oversized_record_closes_batch 5 10 [recA, recB] stOk ['b']
      [recA] (by decide)
  refine ⟨by decide, ?_, ?_, ?_⟩
  · exact h.1 recA (by decide) (by decide)
  · exact (h.2 recA (by decide) (by decide)).1
  · exact (h.2 recA (by decide) (by decide)).2

/-- C2: with positive bounds, every non-final batch satisfied
`cumulative size ≥ max_size` or `cumulative count ≥ max_count` at the
moment it closed (the counters reset per batch, so they equal the batch's
total size and length), every batch holds at most `max_count` records,
and nothing is left unemitted: the batches flatten back to the group, so
a non-empty partial remainder is emitted as the final batch even though
it meets neither bound. -/
theorem c2_batcher_bounds (ms mc : Nat) (g : List StreamRecord)
    (hms : 0 < ms) (hmc : 0 < mc) :
    (∀ b ∈ (batchGroup ms mc g).dropLast, ms ≤ sumSizes b ∨ mc ≤ b.length)
      ∧ (∀ b ∈ batchGroup ms mc g, b.length ≤ mc ∧ b ≠ [])
      ∧ (batchGroup ms mc g).flatten = g := by
  refine ⟨batchGroup_closed_bound ms mc g, ?_, batchGroup_flatten ms mc g⟩
  intro b hb
  exact ⟨batchGroup_length_le ms hmc g b hb, batchGroup_ne_nil ms mc g b hb⟩

/-- Witness for C2 at a concrete input: `max_size = 3`, `max_count = 2`,
three records of size 1 give batches `[[recB, recC], [recB]]`; the
non-final batch closed on the count bound and the final partial batch is
emitted. -/
theorem c2_witness :
    (0 < 3 ∧ 0 < 2)
      ∧ (∀ b ∈ (batchGroup 3 2 [recB, recC, recB]).dropLast,
          3 ≤ sumSizes b ∨ 2 ≤ b.length)
      ∧ (∀ b ∈ batchGroup 3 2 [recB, recC, recB], b.length ≤ 2 ∧ b ≠ [])
      ∧ (batchGroup 3 2 [recB, recC, recB]).flatten = [recB, recC, recB] := by
  have h := c2_batcher_bounds 3 2 [recB, recC, recB] (by decide) (by decide)
  exact ⟨⟨by decide, by decide⟩, h.1, h.2.1, h.2.2⟩

/-- C3: for every group the pipeline builds, flattening its batch
sequence reproduces the group exactly (no record dropped, duplicated or
reordered), every emitted batch is non-empty, every record of every batch
carries the group's topic and partition (batches never span two groups or
partitions), and the batched structure holds exactly these batch
sequences. -/
theorem c3_batches_reassemble_group (ms mc : Nat) (summaries : List Summary) :
    ∀ t partsS p l, (t, partsS) ∈ grouped_object_summaries summaries →
      (p, l) ∈ partsS →
      (batchGroup ms mc l).flatten = l
        ∧ (∀ b ∈ batchGroup ms mc l, b ≠ [])
        ∧ (∀ b ∈ batchGroup ms mc l, ∀ r ∈ b, r.topic = t ∧ r.partition = p)
        ∧ (t, partsS.map (fun q => (q.1, batchGroup ms mc q.2)))
            ∈ batched_object_summaries ms mc (grouped_object_summaries summaries) := by
  intro t partsS p l h1 h2
  obtain ⟨hl, -⟩ := grouped_mem h1 h2
  refine ⟨batchGroup_flatten ms mc l, batchGroup_ne_nil ms mc l, ?_, ?_⟩
  · intro b hb r hr
    have hrl : r ∈ l := by
      rw [← batchGroup_flatten ms mc l]
      exact List.mem_flatten.mpr ⟨b, hb, hr⟩
    rw [hl] at hrl
    have hrf := (mem_sortByStart _ r).mp hrl
    have hkm := (km_iff r t p).mp ((List.mem_filter.mp hrf).2)
    exact ⟨hkm.1.symm, hkm.2.symm⟩
  · exact List.mem_map_of_mem (fun e => (e.1, e.2.map (fun q => (q.1, batchGroup ms mc q.2)))) h1

/-- Witness for C3 at a concrete input: one matching key produces a
single group for topic `t`, partition `1`, whose batch sequence flattens
back to it and stays within the group. -/
theorem c3_witness :
    ((['t'], [(1, [recT])]) ∈ grouped_object_summaries [sumT])
      ∧ ((1, [recT]) ∈ [(1, [recT])])
      ∧ (batchGroup 10 10 [recT]).flatten = [recT]
      ∧ (∀ b ∈ batchGroup 10 10 [recT],
          ∀ r ∈ b, r.topic = ['t'] ∧ r.partition = 1) := by
  have h := c3_batches_reassemble_group 10 10 [sumT]
    ['t'] [(1, [recT])] 1 [recT] (by decide) (by decide)
  exact ⟨by decide, by decide, h.1, h.2.2.1⟩

/-- C5: every group the grouping stage produces is non-decreasing in
`start_offset`; records with equal `start_offset` keep their relative
listing order (the per-key filters of the group coincide with those of
the parsed records in input order, which is stability of the sort); and
all records of a group carry the group's topic and partition. -/
theorem c5_groups_sorted_stable (summaries : List Summary) :
    ∀ t partsS p l, (t, partsS) ∈ grouped_object_summaries summaries →
      (p, l) ∈ partsS →
      l.Pairwise (fun x y => x.start_offset ≤ y.start_offset)
        ∧ (∀ v : Nat, l.filter (fun x => x.start_offset == v)
            = ((summaries.filterMap parseSummary).filter
                (fun r => r.topic == t && r.partition == p)).filter
                (fun x => x.start_offset == v))
        ∧ (∀ r ∈ l, r.topic = t ∧ r.partition = p) := by
  intro t partsS p l h1 h2
  obtain ⟨hl, -⟩ := grouped_mem h1 h2
  refine ⟨?_, ?_, ?_⟩
  · rw [hl]
    exact sortByStart_pairwise _
  · intro v
    rw [hl]
    exact sortByStart_filter _ v
  · intro r hr
    rw [hl] at hr
    have hrf := (mem_sortByStart _ r).mp hr
    have hkm := (km_iff r t p).mp ((List.mem_filter.mp hrf).2)
    exact ⟨hkm.1.symm, hkm.2.symm⟩

/-- Witness for C5 at a concrete input: two records of partition 1 are
listed out of order and the group holds them sorted by `start_offset`,
with the stability equation instantiated at offset 2. -/
theorem c5_witness :
    ((['t'], [(1, [recT, recU])]) ∈ grouped_object_summaries [sumU, sumT])
      ∧ ((1, [recT, recU]) ∈ [(1, [recT, recU])])
      ∧ [recT, recU].Pairwise (fun x y => x.start_offset ≤ y.start_offset)
      ∧ [recT, recU].filter (fun x => x.start_offset == 2)
          = (([sumU, sumT].filterMap parseSummary).filter
              (fun r => r.topic == ['t'] && r.partition == 1)).filter
              (fun x => x.start_offset == 2)
      ∧ (∀ r ∈ [recT, recU], r.topic = ['t'] ∧ r.partition = 1) := by
  have h := c5_groups_sorted_stable [sumU, sumT] ['t'] [(1, [recT, recU])]
    1 [recT, recU] (by decide) (by decide)
  exact ⟨by decide, by decide, h.1, h.2.1 2, h.2.2⟩

/-- Inversion: a record is only built when `findall` returned exactly one
tuple. -/
theorem parseSummary_some_len {s : Summary} {r : StreamRecord}
    (h : parseSummary s = some r) : (allMatches s.key).length = 1 := by
  unfold parseSummary at h
  rcases hm : allMatches s.key with _ | ⟨x, xs⟩
  · rw [hm] at h
    exact Option.noConfusion h
  · rcases xs with _ | ⟨y, ys⟩
    · simp [hm]
    · rw [hm] at h
      obtain ⟨x1, x2, x3, x4⟩ := x
      exact Option.noConfusion h

/-- C9: a key with zero matches of the pattern yields no record; a key
with more than one structurally valid match would also yield no record
(the code demands exactly one); and every record of every produced group
comes from a summary whose key matched exactly once — descriptors with
non-matching keys never reach a group. -/
theorem c9_nonmatching_keys_dropped :
    (∀ s : Summary, allMatches s.key = [] → parseSummary s = none)
      ∧ (∀ s : Summary, 1 < (allMatches s.key).length → parseSummary s = none)
      ∧ (∀ (summaries : List Summary) t partsS p l r,
          (t, partsS) ∈ grouped_object_summaries summaries →
          (p, l) ∈ partsS → r ∈ l →
          ∃ s ∈ summaries, parseSummary s = some r
            ∧ (allMatches s.key).length = 1) := by
  refine ⟨?_, ?_, ?_⟩
  · intro s hz
    simp [parseSummary, hz]
  · intro s hlen
    unfold parseSummary
    rcases hm : allMatches s.key with _ | ⟨x, xs⟩
    · rfl
    · rcases xs with _ | ⟨y, ys⟩
      · rw [hm] at hlen
        simp at hlen
      · obtain ⟨x1, x2, x3, x4⟩ := x
        rfl
  · intro summaries t partsS p l r h1 h2 hr
    obtain ⟨hl, -⟩ := grouped_mem h1 h2
    rw [hl] at hr
    have hrf := (mem_sortByStart _ r).mp hr
    have hrm := (List.mem_filter.mp hrf).1
    obtain ⟨s, hs, hps⟩ := List.mem_filterMap.mp hrm
    exact ⟨s, hs, hps, parseSummary_some_len hps⟩

/-- Witness for C9 at concrete inputs: a key without any slash has no
match and yields no record; a hypothetical double-match length is
refuted trivially at a key with one match; and the single record of the
one-key run comes from its matching summary. -/
theorem c9_witness :
    parseSummary ⟨"nomatch.jsonl.gz".toList, 3⟩ = none
      ∧ (∃ s ∈ [sumT], parseSummary s = some recT
          ∧ (allMatches s.key).length = 1) := by
  refine ⟨c9_nonmatching_keys_dropped.1 ⟨"nomatch.jsonl.gz".toList, 3⟩ (by decide), ?_⟩
  exact c9_nonmatching_keys_dropped.2.2 [sumT] ['t'] [(1, [recT])] 1 [recT] recT
    (by decide) (by decide) (by decide)

/-- C4: every key of the naming-grammar shape
`<pre>/<sid>_<p>_<a>-<b>.jsonl.gz`, with `sid` a nonempty word-dot string
and `p`, `a`, `b` nonempty digit strings, matches the pattern exactly
once, and the parser builds the record whose `topic`, `partition`,
`start_offset` and `end_offset` are exactly the embedded values (read as
decimal numerals) and whose `size` is the descriptor's size. -/
theorem c4_keyparser_roundtrip (pre sid p a b : List Char) (n : Nat)
    (hsw : ∀ c ∈ sid, isWordDot c = true) (hs : sid ≠ [])
    (hpd : ∀ c ∈ p, c.isDigit = true) (hp : p ≠ [])
    (had : ∀ c ∈ a, c.isDigit = true) (ha : a ≠ [])
    (hbd : ∀ c ∈ b, c.isDigit = true) (hb : b ≠ []) :
    (allMatches (goodKey pre sid p a b)).length = 1
      ∧ parseSummary ⟨goodKey pre sid p a b, n⟩
          = some ⟨goodKey pre sid p a b,
              sid, digitsToNat p, digitsToNat a, digitsToNat b, n⟩ := by
  constructor
  · rw [allMatches_embed pre sid p a b hsw hs hpd hp had ha hbd hb]
    rfl
  · exact parseSummary_embed pre sid p a b n hsw hs hpd hp had ha hbd hb

/-- Witness for C4 at a concrete key
`corp/db.core_4_100-200.jsonl.gz` of size 55. -/
theorem c4_witness :
    ((∀ c ∈ "db.core".toList, isWordDot c = true) ∧ "db.core".toList ≠ []
        ∧ (∀ c ∈ "4".toList, c.isDigit = true) ∧ "4".toList ≠ []
        ∧ (∀ c ∈ "100".toList, c.isDigit = true) ∧ "100".toList ≠ []
        ∧ (∀ c ∈ "200".toList, c.isDigit = true) ∧ "200".toList ≠ [])
      ∧ (allMatches (goodKey "corp".toList "db.core".toList "4".toList
            "100".toList "200".toList)).length = 1
      ∧ parseSummary ⟨goodKey "corp".toList "db.core".toList "4".toList
            "100".toList "200".toList, 55⟩
          = some ⟨goodKey "corp".toList "db.core".toList "4".toList
              "100".toList "200".toList, "db.core".toList, 4, 100, 200, 55⟩ := by
  have h := c4_keyparser_roundtrip "corp".toList "db.core".toList "4".toList
    "100".toList "200".toList 55
    (by decide) (by decide) (by decide) (by decide)
    (by decide) (by decide) (by decide) (by decide)
  refine ⟨⟨by decide, by decide, by decide, by decide, by decide, by decide,
    by decide, by decide⟩, h.1, ?_⟩
  rw [h.2]
  have : digitsToNat "4".toList = 4 ∧ digitsToNat "100".toList = 100
      ∧ digitsToNat "200".toList = 200 := by decide
  rw [this.1, this.2.1, this.2.2]

/-- C1: the run-level result is the logical AND of all per-batch outcomes
across all streams and partitions (vacuously true when nothing was
produced), and the process exit code is `0` exactly when that result is
true, the distinguished non-zero code `2` otherwise. -/
theorem c1_run_result_and_exit_code (st : Store) (bucket : List Char)
    (ms mc : Nat) (summaries : List Summary) :
    ((main_run st bucket ms mc summaries).1 = true
        ↔ ∀ tr ∈ main_results st bucket ms mc summaries,
            ∀ pr ∈ tr, ∀ o ∈ pr, o.1 = true)
      ∧ (main_results st bucket ms mc summaries = [] →
          (main_run st bucket ms mc summaries).1 = true)
      ∧ (main_run st bucket ms mc summaries).2
          = (if (main_run st bucket ms mc summaries).1 = true then 0 else 2)
      ∧ ((main_run st bucket ms mc summaries).2 = 0
          ↔ (main_run st bucket ms mc summaries).1 = true) := by
  refine ⟨?_, ?_, rfl, ?_⟩
  · show successful_result (main_results st bucket ms mc summaries) = true ↔ _
    unfold successful_result
    simp [List.all_eq_true]
  · intro h
    show successful_result (main_results st bucket ms mc summaries) = true
    rw [h]
    rfl
  · cases hb : successful_result (main_results st bucket ms mc summaries) with
    | false => simp [main_run, hb]
    | true => simp [main_run, hb]

/-- C7: a store rejection raised by the coalesce or by the delete is
caught at the batch boundary and becomes a failed outcome for that batch
only — every sibling batch of the partition still receives its own
outcome; a coalesce-raised `ClientError` makes the batch's outcome false,
and so does a delete-raised one after a successful coalesce; in either
case, at run level the result is false and the exit code the
distinguished `2`, irrespective of all other batches. -/
theorem c7_store_rejection_batch_local (st : Store) (bucket : List Char) :
    (∀ (part : List (List StreamRecord)) (batch : List StreamRecord),
        batch ∈ part →
        coalesce_batch st bucket batch ∈ coalesce_partition st bucket part
          ∧ (coalesce_partition st bucket part).length = part.length)
      ∧ (∀ batch : List StreamRecord, 1 < batch.length →
          st.coalesceRes bucket batch = Except.ok () →
          ∀ e, st.deleteRes bucket batch = Except.error e →
          (coalesce_batch st bucket batch).1 = false)
      ∧ (∀ batch : List StreamRecord, 1 < batch.length →
          ∀ e, st.coalesceRes bucket batch = Except.error e →
          (coalesce_batch st bucket batch).1 = false)
      ∧ (∀ (ms mc : Nat) (summaries : List Summary) t bt p part batch,
          (t, bt) ∈ batched_object_summaries ms mc
            (grouped_object_summaries summaries) →
          (p, part) ∈ bt → batch ∈ part → 1 < batch.length →
          st.coalesceRes bucket batch = Except.ok () →
          (∃ e, st.deleteRes bucket batch = Except.error e) →
          (main_run st bucket ms mc summaries).1 = false
            ∧ (main_run st bucket ms mc summaries).2 = 2)
      ∧ (∀ (ms mc : Nat) (summaries : List Summary) t bt p part batch,
          (t, bt) ∈ batched_object_summaries ms mc
            (grouped_object_summaries summaries) →
          (p, part) ∈ bt → batch ∈ part → 1 < batch.length →
          (∃ e, st.coalesceRes bucket batch = Except.error e) →
          (main_run st bucket ms mc summaries).1 = false
            ∧ (main_run st bucket ms mc summaries).2 = 2) := by
  have hchain : ∀ (ms mc : Nat) (summaries : List Summary) t bt p
      (part : List (List StreamRecord)) (batch : List StreamRecord),
      (t, bt) ∈ batched_object_summaries ms mc
        (grouped_object_summaries summaries) →
      (p, part) ∈ bt → batch ∈ part →
      (coalesce_batch st bucket batch).1 = false →
      (main_run st bucket ms mc summaries).1 = false
        ∧ (main_run st bucket ms mc summaries).2 = 2 := by
    intro ms mc summaries t bt p part batch hbt hp2 hbatch hfalse
    have htr : coalesce_topic st bucket bt
        ∈ main_results st bucket ms mc summaries :=
      List.mem_map_of_mem (fun e => coalesce_topic st bucket e.2) hbt
    have hpr : coalesce_partition st bucket part
        ∈ coalesce_topic st bucket bt :=
      List.mem_map_of_mem (fun q => coalesce_partition st bucket q.2) hp2
    have ho : coalesce_batch st bucket batch
        ∈ coalesce_partition st bucket part :=
      List.mem_map_of_mem (coalesce_batch st bucket) hbatch
    have hsf := successful_result_eq_false htr hpr ho hfalse
    refine ⟨hsf, ?_⟩
    simp [main_run, hsf]
  refine ⟨?_, ?_, ?_, ?_, ?_⟩
  · intro part batch hb
    exact ⟨List.mem_map_of_mem (coalesce_batch st bucket) hb,
      List.length_map part (coalesce_batch st bucket)⟩
  · intro batch hlen hok e herr
    rw [coalesce_batch_delete_fail st bucket batch hlen hok e herr]
  · intro batch hlen e herr
    rw [coalesce_batch_coalesce_fail st bucket batch hlen e herr]
  · intro ms mc summaries t bt p part batch hbt hp2 hbatch hlen hok hex
    obtain ⟨e, he⟩ := hex
    have hfalse : (coalesce_batch st bucket batch).1 = false := by
      rw [coalesce_batch_delete_fail st bucket batch hlen hok e he]
    exact hchain ms mc summaries t bt p part batch hbt hp2 hbatch hfalse
  · intro ms mc summaries t bt p part batch hbt hp2 hbatch hlen hex
    obtain ⟨e, he⟩ := hex
    have hfalse : (coalesce_batch st bucket batch).1 = false := by
      rw [coalesce_batch_coalesce_fail st bucket batch hlen e he]
    exact hchain ms mc summaries t bt p part batch hbt hp2 hbatch hfalse

/-- Witness for C7 at a concrete input: one group of two records is
batched into a single two-record batch; with a store whose delete always
raises (and one whose coalesce always raises), that batch's outcome is
failure and the run exits with code 2 in both cases. -/
theorem c7_witness :
    ((['t'], [(1, [[recT, recU]])]) ∈ batched_object_summaries 100 10
        (grouped_object_summaries [sumT, sumU]))
      ∧ ((1, [[recT, recU]]) ∈ [(1, [[recT, recU]])])
      ∧ ([recT, recU] ∈ [[recT, recU]])
      ∧ 1 < [recT, recU].length
      ∧ stDelFail.coalesceRes ['b'] [recT, recU] = Except.ok ()
      ∧ stDelFail.deleteRes ['b'] [recT, recU] = Except.error ⟨['x']⟩
      ∧ (main_run stDelFail ['b'] 100 10 [sumT, sumU]).1 = false
      ∧ (main_run stDelFail ['b'] 100 10 [sumT, sumU]).2 = 2
      ∧ stCoalFail.coalesceRes ['b'] [recT, recU] = Except.error ⟨['y']⟩
      ∧ (coalesce_batch stCoalFail ['b'] [recT, recU]).1 = false
      ∧ (main_run stCoalFail ['b'] 100 10 [sumT, sumU]).1 = false
      ∧ (main_run stCoalFail ['b'] 100 10 [sumT, sumU]).2 = 2 := by
  have h := (c7_store_rejection_batch_local stDelFail ['b']).2.2.2.1
    100 10 [sumT, sumU] ['t'] [(1, [[recT, recU]])] 1 [[recT, recU]]
    [recT, recU] (by decide) (by decide) (by decide) (by decide) rfl
    ⟨⟨['x']⟩, rfl⟩
  have hcb := (c7_store_rejection_batch_local stCoalFail ['b']).2.2.1
    [recT, recU] (by decide) ⟨['y']⟩ rfl
  have hc := (c7_store_rejection_batch_local stCoalFail ['b']).2.2.2.2
    100 10 [sumT, sumU] ['t'] [(1, [[recT, recU]])] 1 [[recT, recU]]
    [recT, recU] (by decide) (by decide) (by decide) (by decide)
    ⟨⟨['y']⟩, rfl⟩
  exact ⟨by decide, by decide, by decide, by decide, rfl, rfl, h.1, h.2,
    rfl, hcb, hc.1, hc.2⟩

/-- C8 (code bug evidence): `grouped_object_summaries` takes no partition
parameter and performs no partition filtering, although `main` passes it
`args.partition`; evaluated on a listing whose only key belongs to
partition `1`, the function produces the partition-1 group — so a run
configured to process only partition `0` would still group (and hence
batch and coalesce) partition 1. -/
theorem c8_no_partition_filter :
    grouped_object_summaries [sumT] = [(['t'], [(1, [recT])])] := by
  decide

/-- Witness for C1 at a concrete input: with an always-succeeding store
the run result is true and the exit code 0. -/
theorem c1_witness :
    (main_run stOk ['b'] 100 10 [sumT, sumU]).1 = true
      ∧ (main_run stOk ['b'] 100 10 [sumT, sumU]).2 = 0 := by
  have h := c1_run_result_and_exit_code stOk ['b'] 100 10 [sumT, sumU]
  have h1 : (main_run stOk ['b'] 100 10 [sumT, sumU]).1 = true :=
    h.1.mpr (by decide)
  exact ⟨h1, by rw [h.2.2.1, if_pos h1]⟩
